import Mathlib

/-!
Verification of the streaming block-cipher engine from
`providers/common/ciphers/aes.c` (OpenSSL provider AES/ECB wrapper).

The engine sits between a caller supplying arbitrary-length input in
arbitrary chunks and a fixed 16-byte block transform.  The file embeds the
C functions `aes_update`, `aes_final`, `aes_einit`, `aes_dinit`,
`aes_*_ecb_newctx`, `aes_dupctx`, `aes_get_params`, `aes_set_params` as
Lean functions over an explicit context value, and proves the buffering,
holdback, padding and round-trip properties claimed for them.

The helpers `fillblock`, `trailingdata`, `padblock`, `unpadblock`, the
`OSSL_PARAM` accessors and the block transform itself are declared in
headers / sibling files that are not part of the sources here; they are
modelled from the specification text (marked in their doc comments).
-/

/-- A byte, modelled as a natural number (values < 256 in real traces). -/
abbrev Byte := Nat

/-- `AES_BLOCK_SIZE` from the source: 16 bytes. -/
def AES_BLOCK_SIZE : Nat := 16

/-- `EVP_CIPH_ECB_MODE` mode tag. -/
def EVP_CIPH_ECB_MODE : Nat := 1

/-- Modelled from the spec: the pluggable single-block transform primitive
(`PROV_AES_CIPHER` dispatch, declared in `ciphers_locl.h`, not among the
sources).  One function per direction; each is applied to one whole
16-byte block and returns the transformed block. -/
structure PROV_AES_CIPHER where
  encBlock : List Byte → List Byte
  decBlock : List Byte → List Byte

/-- The cipher context `PROV_AES_KEY` (layout declared in
`ciphers_locl.h`; per the spec the pending buffer, IV and key state are
fixed-size fields owned by the context itself).  `buf` holds the pending
bytes (`buf`/`bufsz` in C), `enc` the direction, `pad` the padding flag. -/
structure PROV_AES_KEY where
  enc : Bool
  pad : Bool
  buf : List Byte
  iv : List Byte
  keylen : Nat
  key : List Byte
  mode : Nat
  ciph : PROV_AES_CIPHER

/-- Apply a single-block function blockwise over a whole-block span, the
way `ctx->ciph->cipher` processes a multi-block buffer. -/
def ciphBlocks (f : List Byte → List Byte) (l : List Byte) : List Byte :=
  if h : l = [] then []
  else f (l.take AES_BLOCK_SIZE) ++ ciphBlocks f (l.drop AES_BLOCK_SIZE)
termination_by l.length
decreasing_by
  simp only [List.length_drop]
  have : 0 < l.length := List.length_pos.mpr h
  simp [AES_BLOCK_SIZE]
  omega

/-- `ctx->ciph->cipher(ctx, out, in, len)`: transform a whole-block span
in the direction of the context. -/
def cipherOp (ctx : PROV_AES_KEY) (l : List Byte) : List Byte :=
  ciphBlocks (if ctx.enc then ctx.ciph.encBlock else ctx.ciph.decBlock) l

/-- Modelled from the spec (§4.1 Block Accumulator, first half; C helper
`fillblock` is not among the sources): top up the pending buffer towards a
full block from the front of the input, and report the largest whole-block
multiple of the remaining input.  Returns (new pending, remaining input,
nextblocks). -/
def fillblock (buf : List Byte) (input : List Byte) :
    List Byte × List Byte × Nat :=
  let bufremain := min (AES_BLOCK_SIZE - buf.length) input.length
  let buf2 := buf ++ input.take bufremain
  let rest := input.drop bufremain
  (buf2, rest, rest.length - rest.length % AES_BLOCK_SIZE)

/-- Modelled from the spec (§4.1 Block Accumulator, second half; C helper
`trailingdata` is not among the sources): retain the remaining input
(strictly less than a block together with the pending bytes) in the
pending buffer; fail if it does not fit.  On success the whole input has
been consumed. -/
def trailingdata (buf : List Byte) (input : List Byte) :
    Option (List Byte) :=
  if input.length = 0 then some buf
  else if AES_BLOCK_SIZE < buf.length + input.length then none
  else some (buf ++ input)

/-- Modelled from the spec (§4.5 Padding Codec; C helper `padblock` is not
among the sources): fill the block with pad bytes of value
`p = block_size - data_len`. -/
def padblock (buf : List Byte) : List Byte :=
  let p := AES_BLOCK_SIZE - buf.length
  buf ++ List.replicate p p

/-- Modelled from the spec (§4.5 Padding Codec; C helper `unpadblock` is
not among the sources): read the last byte as the pad length `p`, reject
`p` outside `[1, block_size]`, reject unless all of the last `p` bytes
equal `p`, and strip the `p` pad bytes. -/
def unpadblock (buf : List Byte) : Option (List Byte) :=
  if buf.length ≠ AES_BLOCK_SIZE then none
  else
    let p := buf.getLast?.getD 0
    if p = 0 ∨ AES_BLOCK_SIZE < p then none
    else if (buf.drop (AES_BLOCK_SIZE - p)).all (· == p) then
      some (buf.take (AES_BLOCK_SIZE - p))
    else none

/-- `aes_update` from the source.  Failure (`return 0`) is `none`; success
returns the updated context and the emitted bytes (`*outl` is their
length).  The three stages mirror the C: `fillblock`, the decrypt
holdback flush of a completed pending block, the bulk whole-block
processing (with the last-block holdback adjustment and its
`ossl_assert`), and `trailingdata`. -/
def aes_update (ctx : PROV_AES_KEY) (input : List Byte) :
    Option (PROV_AES_KEY × List Byte) :=
  let fb := fillblock ctx.buf input
  let buf1 := fb.1
  let in1 := fb.2.1
  let nextblocks := fb.2.2
  if buf1.length = AES_BLOCK_SIZE ∧
      (ctx.enc = true ∨ 0 < in1.length ∨ ctx.pad = false) then
    let out1 := cipherOp ctx buf1
    if 0 < nextblocks then
      if ctx.enc = false ∧ ctx.pad = true ∧ nextblocks = in1.length then
        if in1.length < AES_BLOCK_SIZE then none
        else
          let nb := nextblocks - AES_BLOCK_SIZE
          match trailingdata [] (in1.drop nb) with
          | none => none
          | some buf3 =>
              some ({ ctx with buf := buf3 }, out1 ++ cipherOp ctx (in1.take nb))
      else
        match trailingdata [] (in1.drop nextblocks) with
        | none => none
        | some buf3 =>
            some ({ ctx with buf := buf3 },
                  out1 ++ cipherOp ctx (in1.take nextblocks))
    else
      match trailingdata [] in1 with
      | none => none
      | some buf3 => some ({ ctx with buf := buf3 }, out1)
  else
    if 0 < nextblocks then
      if ctx.enc = false ∧ ctx.pad = true ∧ nextblocks = in1.length then
        if in1.length < AES_BLOCK_SIZE then none
        else
          let nb := nextblocks - AES_BLOCK_SIZE
          match trailingdata buf1 (in1.drop nb) with
          | none => none
          | some buf3 =>
              some ({ ctx with buf := buf3 }, cipherOp ctx (in1.take nb))
      else
        match trailingdata buf1 (in1.drop nextblocks) with
        | none => none
        | some buf3 =>
            some ({ ctx with buf := buf3 }, cipherOp ctx (in1.take nextblocks))
    else
      match trailingdata buf1 in1 with
      | none => none
      | some buf3 => some ({ ctx with buf := buf3 }, [])

/-- `aes_final` from the source: encrypt path pads (or requires an exact
block when padding is off) and emits one block; decrypt path requires the
held full block (or an empty buffer when padding is off), transforms it,
and validates/strips padding when the flag is set. -/
def aes_final (ctx : PROV_AES_KEY) : Option (PROV_AES_KEY × List Byte) :=
  if ctx.enc then
    if ctx.pad then
      some ({ ctx with buf := [] }, cipherOp ctx (padblock ctx.buf))
    else if ctx.buf.length = 0 then
      some (ctx, [])
    else if ctx.buf.length ≠ AES_BLOCK_SIZE then
      none
    else
      some ({ ctx with buf := [] }, cipherOp ctx ctx.buf)
  else
    if ctx.buf.length ≠ AES_BLOCK_SIZE then
      if ctx.buf.length = 0 ∧ ctx.pad = false then some (ctx, []) else none
    else
      let d := cipherOp ctx ctx.buf
      if ctx.pad then
        match unpadblock d with
        | none => none
        | some stripped => some ({ ctx with buf := [] }, stripped)
      else
        some ({ ctx with buf := [] }, d)

/-- `PROV_AES_KEY_generic_init` from the source: record the direction and
copy the IV (one block) if provided. -/
def PROV_AES_KEY_generic_init (ctx : PROV_AES_KEY) (iv : Option (List Byte))
    (enc : Bool) : PROV_AES_KEY :=
  match iv with
  | some v => { ctx with iv := v.take AES_BLOCK_SIZE, enc := enc }
  | none => { ctx with enc := enc }

/-- Modelled from the spec (§4.2, §7: the external key-schedule primitive
`ctx->ciph->init` is not among the sources): reject an invalid key length,
otherwise bind the key state to the context. -/
def ciph_init (ctx : PROV_AES_KEY) (key : List Byte) (keylen : Nat) :
    Option PROV_AES_KEY :=
  if key.length = keylen then some { ctx with key := key } else none

/-- `aes_einit` from the source: set direction to encrypt, copy the IV,
and run key setup when a key is supplied. -/
def aes_einit (ctx : PROV_AES_KEY) (key iv : Option (List Byte)) :
    Option PROV_AES_KEY :=
  let c := PROV_AES_KEY_generic_init ctx iv true
  match key with
  | some k => ciph_init c k c.keylen
  | none => some c

/-- `aes_dinit` from the source: set direction to decrypt, copy the IV,
and run key setup when a key is supplied. -/
def aes_dinit (ctx : PROV_AES_KEY) (key iv : Option (List Byte)) :
    Option PROV_AES_KEY :=
  let c := PROV_AES_KEY_generic_init ctx iv false
  match key with
  | some k => ciph_init c k c.keylen
  | none => some c

/-- `aes_256_ecb_newctx` from the source: zeroed context with padding on,
256-bit key length, ECB dispatch (passed in as the external transform). -/
def aes_256_ecb_newctx (ecb : PROV_AES_CIPHER) : PROV_AES_KEY :=
  { enc := false, pad := true, buf := [], iv := List.replicate AES_BLOCK_SIZE 0,
    keylen := 256 / 8, key := [], mode := EVP_CIPH_ECB_MODE, ciph := ecb }

/-- `aes_192_ecb_newctx` from the source. -/
def aes_192_ecb_newctx (ecb : PROV_AES_CIPHER) : PROV_AES_KEY :=
  { enc := false, pad := true, buf := [], iv := List.replicate AES_BLOCK_SIZE 0,
    keylen := 192 / 8, key := [], mode := EVP_CIPH_ECB_MODE, ciph := ecb }

/-- `aes_128_ecb_newctx` from the source. -/
def aes_128_ecb_newctx (ecb : PROV_AES_CIPHER) : PROV_AES_KEY :=
  { enc := false, pad := true, buf := [], iv := List.replicate AES_BLOCK_SIZE 0,
    keylen := 128 / 8, key := [], mode := EVP_CIPH_ECB_MODE, ciph := ecb }

/-- `aes_dupctx` from the source: `*ret = *in`, a whole-struct copy.  Per
the data model of the spec the buffers and key state are fixed-size fields of
the struct itself, so the copy carries its own independent storage; the
result is the same context value. -/
def aes_dupctx (ctx : PROV_AES_KEY) : PROV_AES_KEY := ctx

/-- `key_length_256` from the source. -/
def key_length_256 : Nat := 256 / 8

/-- `key_length_192` from the source. -/
def key_length_192 : Nat := 192 / 8

/-- `key_length_128` from the source. -/
def key_length_128 : Nat := 128 / 8

/-- Modelled from the spec (§6 parameter exchange; the `OSSL_PARAM`
machinery is not among the sources): a parameter datum either carries an
integer-convertible value or has some other, non-integer type. -/
inductive ParamData where
  | int (v : Int)
  | other
deriving DecidableEq

/-- Modelled from the spec (§6): a named parameter entry. -/
structure OSSL_PARAM where
  key : String
  data : ParamData
deriving DecidableEq

/-- `OSSL_CIPHER_PARAM_PADDING` from `core_names.h`. -/
def OSSL_CIPHER_PARAM_PADDING : String := "padding"

/-- Modelled from the spec (§6): locate the first parameter with the
given name. -/
def OSSL_PARAM_locate (ps : List OSSL_PARAM) (k : String) :
    Option OSSL_PARAM :=
  ps.find? (fun p => p.key == k)

/-- Modelled from the spec (§6): read a parameter as an integer; fails on
a non-integer-convertible type. -/
def OSSL_PARAM_get_int (p : OSSL_PARAM) : Option Int :=
  match p.data with
  | .int v => some v
  | .other => none

/-- Modelled from the spec (§6): write an unsigned integer into a
parameter slot; fails on a non-integer-convertible slot type. -/
def OSSL_PARAM_set_uint (p : OSSL_PARAM) (v : Nat) : Option OSSL_PARAM :=
  match p.data with
  | .int _ => some { p with data := .int v }
  | .other => none

/-- Replace the first parameter with the given name (the in-place write
`OSSL_PARAM_set_uint` performs through the located pointer). -/
def replaceParam (ps : List OSSL_PARAM) (k : String) (p' : OSSL_PARAM) :
    List OSSL_PARAM :=
  match ps with
  | [] => []
  | p :: rest =>
      if p.key == k then p' :: rest else p :: replaceParam rest k p'

/-- `aes_get_params` from the source: if the padding parameter is present,
write the padding flag of the context into it (failing if the slot cannot take
an unsigned integer); absent parameters are left alone. -/
def aes_get_params (ctx : PROV_AES_KEY) (ps : List OSSL_PARAM) :
    Option (List OSSL_PARAM) :=
  match OSSL_PARAM_locate ps OSSL_CIPHER_PARAM_PADDING with
  | none => some ps
  | some p =>
      match OSSL_PARAM_set_uint p (if ctx.pad then 1 else 0) with
      | none => none
      | some p' => some (replaceParam ps OSSL_CIPHER_PARAM_PADDING p')

/-- `aes_set_params` from the source: if the padding parameter is present,
read it as an integer (failing, with the context untouched, on a wrong
type) and set the flag to its boolean value; if absent, succeed without
touching the context. -/
def aes_set_params (ctx : PROV_AES_KEY) (ps : List OSSL_PARAM) :
    Bool × PROV_AES_KEY :=
  match OSSL_PARAM_locate ps OSSL_CIPHER_PARAM_PADDING with
  | none => (true, ctx)
  | some p =>
      match OSSL_PARAM_get_int p with
      | none => (false, ctx)
      | some v => (true, { ctx with pad := v ≠ 0 })

/-- Run a sequence of `aes_update` calls, concatenating the emitted
output. -/
def updates (ctx : PROV_AES_KEY) :
    List (List Byte) → Option (PROV_AES_KEY × List Byte)
  | [] => some (ctx, [])
  | c :: cs =>
      match aes_update ctx c with
      | none => none
      | some (ctx1, o1) =>
          match updates ctx1 cs with
          | none => none
          | some (ctx2, o2) => some (ctx2, o1 ++ o2)

/-- A whole stream: the `update` calls followed by `final`, output
concatenated. -/
def runStream (ctx : PROV_AES_KEY) (cs : List (List Byte)) :
    Option (List Byte) :=
  match updates ctx cs with
  | none => none
  | some (c1, o1) =>
      match aes_final c1 with
      | none => none
      | some (_, o2) => some (o1 ++ o2)

/-- How many bytes `aes_update` keeps pending after processing a total
stream of `n` bytes: the remainder mod the block size, except that a
decrypt stream with padding enabled holds back a full block when the
stream ends exactly on a (nonzero) block boundary. -/
def heldLen (enc pad : Bool) (n : Nat) : Nat :=
  if enc = false ∧ pad = true ∧ n % AES_BLOCK_SIZE = 0 ∧ 0 < n then
    AES_BLOCK_SIZE
  else n % AES_BLOCK_SIZE

/-- Context states whose pending buffer is consistent with the holdback
discipline: at most one block pending, and a full pending block only on a
decrypt stream with padding enabled. -/
def goodPend (ctx : PROV_AES_KEY) : Prop :=
  ctx.buf.length ≤ AES_BLOCK_SIZE ∧
    (ctx.buf.length = AES_BLOCK_SIZE → ctx.enc = false ∧ ctx.pad = true)

/-- Context states reachable from a fresh 256-bit ECB context by init,
update and final calls. -/
inductive Reachable (ecb : PROV_AES_CIPHER) : PROV_AES_KEY → Prop where
  | newctx : Reachable ecb (aes_256_ecb_newctx ecb)
  | einit (c c' : PROV_AES_KEY) (key iv : Option (List Byte)) :
      Reachable ecb c → aes_einit c key iv = some c' → Reachable ecb c'
  | dinit (c c' : PROV_AES_KEY) (key iv : Option (List Byte)) :
      Reachable ecb c → aes_dinit c key iv = some c' → Reachable ecb c'
  | update (c c' : PROV_AES_KEY) (x out : List Byte) :
      Reachable ecb c → aes_update c x = some (c', out) → Reachable ecb c'
  | final (c c' : PROV_AES_KEY) (out : List Byte) :
      Reachable ecb c → aes_final c = some (c', out) → Reachable ecb c'

/-! ## Witness fixtures -/

/-- A concrete identity block transform for witness instantiations. -/
def idCiph : PROV_AES_CIPHER := ⟨fun b => b, fun b => b⟩

/-- A decrypt context holding back a full block. -/
def heldCtx : PROV_AES_KEY :=
  { aes_256_ecb_newctx idCiph with buf := List.replicate 16 7 }

/-- An encrypt context with a partial block pending. -/
def encCtx : PROV_AES_KEY :=
  { aes_256_ecb_newctx idCiph with enc := true, buf := [1, 2, 3] }

/-- Concrete encrypt context produced by `aes_einit` on a fresh 256-bit
context. -/
def ectxW : PROV_AES_KEY :=
  { enc := true, pad := true, buf := [], iv := List.replicate 16 0,
    keylen := 32, key := List.replicate 32 0, mode := EVP_CIPH_ECB_MODE,
    ciph := idCiph }

/-- Concrete decrypt context produced by `aes_dinit` on a fresh 256-bit
context. -/
def dctxW : PROV_AES_KEY :=
  { enc := false, pad := true, buf := [], iv := List.replicate 16 0,
    keylen := 32, key := List.replicate 32 0, mode := EVP_CIPH_ECB_MODE,
    ciph := idCiph }

/-! ## Basic lemmas about the blockwise transform and the accumulator -/

theorem ciphBlocks_nil (f : List Byte → List Byte) : ciphBlocks f [] = [] := by
  rw [ciphBlocks]
  simp

theorem ciphBlocks_cons (f : List Byte → List Byte) (l : List Byte) (h : l ≠ []) :
    ciphBlocks f l =
      f (l.take AES_BLOCK_SIZE) ++ ciphBlocks f (l.drop AES_BLOCK_SIZE) := by
  conv_lhs => rw [ciphBlocks]
  simp [h]

theorem ciphBlocks_block (f : List Byte → List Byte) (b : List Byte)
    (hb : b.length = AES_BLOCK_SIZE) : ciphBlocks f b = f b := by
  have hne : b ≠ [] := by
    intro hnil
    rw [hnil] at hb
    simp [AES_BLOCK_SIZE] at hb
  rw [ciphBlocks_cons f b hne, List.take_of_length_le (le_of_eq hb),
      List.drop_eq_nil_of_le (le_of_eq hb), ciphBlocks_nil]
  simp

theorem ciphBlocks_append_aux (f : List Byte → List Byte) :
    ∀ (n : Nat) (a b : List Byte), a.length = n → n % AES_BLOCK_SIZE = 0 →
      ciphBlocks f (a ++ b) = ciphBlocks f a ++ ciphBlocks f b := by
  intro n
  induction n using Nat.strong_induction_on with
  | _ n ih =>
    intro a b hlen hmod
    by_cases ha : a = []
    · simp [ha, ciphBlocks_nil]
    · have hpos : 0 < a.length := List.length_pos.mpr ha
      have h16 : AES_BLOCK_SIZE ≤ a.length := by
        simp only [AES_BLOCK_SIZE] at *
        omega
      have hab : a ++ b ≠ [] := by simp [ha]
      rw [ciphBlocks_cons f (a ++ b) hab, ciphBlocks_cons f a ha,
          List.take_append_of_le_length h16, List.drop_append_of_le_length h16]
      rw [ih (n - AES_BLOCK_SIZE) (by simp only [AES_BLOCK_SIZE] at *; omega)
            (a.drop AES_BLOCK_SIZE) b (by simp [hlen]) (by simp only [AES_BLOCK_SIZE] at *; omega)]
      simp [List.append_assoc]

theorem ciphBlocks_append (f : List Byte → List Byte) (a b : List Byte)
    (ha : a.length % AES_BLOCK_SIZE = 0) :
    ciphBlocks f (a ++ b) = ciphBlocks f a ++ ciphBlocks f b :=
  ciphBlocks_append_aux f a.length a b rfl ha

theorem ciphBlocks_length_aux (f : List Byte → List Byte)
    (hf : ∀ b : List Byte, b.length = AES_BLOCK_SIZE → (f b).length = AES_BLOCK_SIZE) :
    ∀ (n : Nat) (l : List Byte), l.length = n → n % AES_BLOCK_SIZE = 0 →
      (ciphBlocks f l).length = l.length := by
  intro n
  induction n using Nat.strong_induction_on with
  | _ n ih =>
    intro l hlen hmod
    by_cases hl : l = []
    · simp [hl, ciphBlocks_nil]
    · have hpos : 0 < l.length := List.length_pos.mpr hl
      have h16 : AES_BLOCK_SIZE ≤ l.length := by
        simp only [AES_BLOCK_SIZE] at *
        omega
      have htk : (l.take AES_BLOCK_SIZE).length = AES_BLOCK_SIZE := by
        simp [List.length_take]
        omega
      rw [ciphBlocks_cons f l hl]
      rw [List.length_append, hf _ htk,
          ih (n - AES_BLOCK_SIZE) (by simp only [AES_BLOCK_SIZE] at *; omega)
            (l.drop AES_BLOCK_SIZE) (by simp [hlen]) (by simp only [AES_BLOCK_SIZE] at *; omega)]
      simp
      omega

theorem ciphBlocks_length (f : List Byte → List Byte)
    (hf : ∀ b : List Byte, b.length = AES_BLOCK_SIZE → (f b).length = AES_BLOCK_SIZE)
    (l : List Byte) (hl : l.length % AES_BLOCK_SIZE = 0) :
    (ciphBlocks f l).length = l.length :=
  ciphBlocks_length_aux f hf l.length l rfl hl

theorem ciphBlocks_inv_aux (f g : List Byte → List Byte)
    (hf : ∀ b : List Byte, b.length = AES_BLOCK_SIZE → (f b).length = AES_BLOCK_SIZE)
    (hg : ∀ b : List Byte, b.length = AES_BLOCK_SIZE → g (f b) = b) :
    ∀ (n : Nat) (l : List Byte), l.length = n → n % AES_BLOCK_SIZE = 0 →
      ciphBlocks g (ciphBlocks f l) = l := by
  intro n
  induction n using Nat.strong_induction_on with
  | _ n ih =>
    intro l hlen hmod
    by_cases hl : l = []
    · simp [hl, ciphBlocks_nil]
    · have hpos : 0 < l.length := List.length_pos.mpr hl
      have h16 : AES_BLOCK_SIZE ≤ l.length := by
        simp only [AES_BLOCK_SIZE] at *
        omega
      have htk : (l.take AES_BLOCK_SIZE).length = AES_BLOCK_SIZE := by
        simp [List.length_take]
        omega
      rw [ciphBlocks_cons f l hl,
          ciphBlocks_append g _ _ (by rw [hf _ htk]; exact Nat.mod_self _),
          ciphBlocks_block g _ (hf _ htk), hg _ htk,
          ih (n - AES_BLOCK_SIZE) (by simp only [AES_BLOCK_SIZE] at *; omega)
            (l.drop AES_BLOCK_SIZE) (by simp [hlen]) (by simp only [AES_BLOCK_SIZE] at *; omega)]
      exact List.take_append_drop _ l

theorem ciphBlocks_inv (f g : List Byte → List Byte)
    (hf : ∀ b : List Byte, b.length = AES_BLOCK_SIZE → (f b).length = AES_BLOCK_SIZE)
    (hg : ∀ b : List Byte, b.length = AES_BLOCK_SIZE → g (f b) = b)
    (l : List Byte) (hl : l.length % AES_BLOCK_SIZE = 0) :
    ciphBlocks g (ciphBlocks f l) = l :=
  ciphBlocks_inv_aux f g hf hg l.length l rfl hl

theorem cipherOp_nil (ctx : PROV_AES_KEY) : cipherOp ctx [] = [] := by
  unfold cipherOp
  exact ciphBlocks_nil _

theorem cipherOp_append (ctx : PROV_AES_KEY) (a b : List Byte)
    (ha : a.length % AES_BLOCK_SIZE = 0) :
    cipherOp ctx (a ++ b) = cipherOp ctx a ++ cipherOp ctx b :=
  ciphBlocks_append _ a b ha

theorem cipherOp_buf_irrel (ctx : PROV_AES_KEY) (b l : List Byte) :
    cipherOp { ctx with buf := b } l = cipherOp ctx l := rfl

theorem fillblock_fst (buf x : List Byte) (h : buf.length ≤ AES_BLOCK_SIZE) :
    (fillblock buf x).1 =
      (buf ++ x).take (min AES_BLOCK_SIZE (buf ++ x).length) := by
  unfold fillblock
  simp only [List.length_append]
  have hm : min AES_BLOCK_SIZE (buf.length + x.length) =
      buf.length + min (AES_BLOCK_SIZE - buf.length) x.length := by omega
  rw [hm, List.take_append]

theorem fillblock_snd (buf x : List Byte) (h : buf.length ≤ AES_BLOCK_SIZE) :
    (fillblock buf x).2.1 =
      (buf ++ x).drop (min AES_BLOCK_SIZE (buf ++ x).length) := by
  unfold fillblock
  simp only [List.length_append]
  have hm : min AES_BLOCK_SIZE (buf.length + x.length) =
      buf.length + min (AES_BLOCK_SIZE - buf.length) x.length := by omega
  rw [hm, List.drop_append]

theorem fillblock_nextblocks (buf x : List Byte) (h : buf.length ≤ AES_BLOCK_SIZE) :
    (fillblock buf x).2.2 =
      ((buf ++ x).length - min AES_BLOCK_SIZE (buf ++ x).length) -
        ((buf ++ x).length - min AES_BLOCK_SIZE (buf ++ x).length) % AES_BLOCK_SIZE := by
  unfold fillblock
  simp only [List.length_drop]
  have hm : x.length - min (AES_BLOCK_SIZE - buf.length) x.length =
      (buf ++ x).length - min AES_BLOCK_SIZE (buf ++ x).length := by
    simp only [List.length_append, AES_BLOCK_SIZE] at *
    omega
  rw [hm]

theorem trailingdata_fits (buf input : List Byte)
    (h : buf.length + input.length ≤ AES_BLOCK_SIZE) :
    trailingdata buf input = some (buf ++ input) := by
  unfold trailingdata
  by_cases h0 : input.length = 0
  · rw [List.length_eq_zero.mp h0]
    simp
  · rw [if_neg h0, if_neg (by omega)]

/-- A single `aes_update` call, captured extensionally: on any context
with at most one block pending, the call succeeds; the concatenation of
the old pending bytes and the input splits into a processed whole-block
part (transformed and emitted) and a retained tail of `heldLen` bytes. -/
theorem aes_update_eq (ctx : PROV_AES_KEY) (x : List Byte)
    (h : ctx.buf.length ≤ AES_BLOCK_SIZE) :
    aes_update ctx x =
      some ({ ctx with
                buf := (ctx.buf ++ x).drop ((ctx.buf ++ x).length -
                  heldLen ctx.enc ctx.pad (ctx.buf ++ x).length) },
            cipherOp ctx ((ctx.buf ++ x).take ((ctx.buf ++ x).length -
              heldLen ctx.enc ctx.pad (ctx.buf ++ x).length))) := by
  unfold aes_update
  simp only [fillblock_fst ctx.buf x h, fillblock_snd ctx.buf x h,
             fillblock_nextblocks ctx.buf x h, AES_BLOCK_SIZE]
  generalize ctx.buf ++ x = t
  by_cases hsmall : t.length < 16
  · -- everything fits below one block: nothing is flushed
    have hmin : min 16 t.length = t.length := by omega
    have htake : t.take (min 16 t.length) = t := by
      rw [hmin]
      exact List.take_length t
    have hdrop : t.drop (min 16 t.length) = [] := by
      rw [hmin]
      exact List.drop_length t
    have hKz : t.length - min 16 t.length = 0 := by omega
    simp only [htake, hdrop, hKz, List.length_nil, Nat.zero_mod, Nat.sub_self,
               Nat.sub_zero]
    rw [if_neg (by rintro ⟨h1, -⟩; omega :
          ¬(t.length = 16 ∧ (ctx.enc = true ∨ 0 < 0 ∨ ctx.pad = false)))]
    rw [if_neg (lt_irrefl 0)]
    rw [trailingdata_fits t []
          (by simp only [List.length_nil, AES_BLOCK_SIZE]; omega),
        List.append_nil]
    have hH : t.length - heldLen ctx.enc ctx.pad t.length = 0 := by
      simp only [heldLen, AES_BLOCK_SIZE]
      split_ifs <;> omega
    rw [hH]
    simp only [List.drop_zero, List.take_zero, cipherOp_nil]
  · by_cases heq : t.length = 16
    · -- exactly one block accumulated, no input beyond it
      have hmin : min 16 t.length = 16 := by omega
      have htake : t.take (min 16 t.length) = t := by
        rw [hmin, show (16 : Nat) = t.length from heq.symm]
        exact List.take_length t
      have hdrop : t.drop (min 16 t.length) = [] := by
        rw [hmin]
        exact List.drop_eq_nil_of_le (by omega)
      have hKz : t.length - min 16 t.length = 0 := by omega
      simp only [htake, hdrop, hKz, List.length_nil, Nat.zero_mod, Nat.sub_self,
                 Nat.sub_zero]
      by_cases hflush : ctx.enc = true ∨ ctx.pad = false
      · -- the completed block is flushed at once
        rw [if_pos ⟨heq, by
              rcases hflush with h1 | h1
              · exact Or.inl h1
              · exact Or.inr (Or.inr h1)⟩]
        rw [if_neg (lt_irrefl 0)]
        rw [trailingdata_fits [] []
              (by simp only [List.length_nil, AES_BLOCK_SIZE]; omega),
            List.append_nil]
        have hH : heldLen ctx.enc ctx.pad t.length = 0 := by
          simp only [heldLen, AES_BLOCK_SIZE]
          rw [if_neg (by
                rintro ⟨he, hp, -, -⟩
                rcases hflush with h1 | h1 <;> simp [h1] at he hp), heq]
        rw [hH, Nat.sub_zero, List.drop_length, List.take_length]
      · -- decrypt with padding: the completed block is held back
        rw [not_or] at hflush
        obtain ⟨he, hp⟩ := hflush
        rw [Bool.not_eq_true] at he
        rw [Bool.not_eq_false] at hp
        rw [if_neg (by
              rintro ⟨-, h2⟩
              rcases h2 with h1 | h1 | h1
              · simp [h1] at he
              · exact absurd h1 (lt_irrefl 0)
              · simp [h1] at hp)]
        rw [if_neg (lt_irrefl 0)]
        rw [trailingdata_fits t []
              (by simp only [List.length_nil, AES_BLOCK_SIZE]; omega),
            List.append_nil]
        have hH : heldLen ctx.enc ctx.pad t.length = 16 := by
          simp only [heldLen, AES_BLOCK_SIZE]
          rw [if_pos ⟨he, hp, by rw [heq], by omega⟩]
        have h0 : t.length - 16 = 0 := by omega
        rw [hH, h0]
        simp only [List.drop_zero, List.take_zero, cipherOp_nil]
    · -- more than one block: the first block is always flushed
      have hbig : 16 < t.length := by omega
      have hmin : min 16 t.length = 16 := by omega
      simp only [hmin]
      have hlen_take : (t.take 16).length = 16 := by
        simp only [List.length_take]
        omega
      have hlen_drop : (t.drop 16).length = t.length - 16 := by
        simp only [List.length_drop]
      simp only [hlen_take, hlen_drop]
      rw [if_pos ⟨trivial, Or.inr (Or.inl (by omega))⟩]
      by_cases hnb : 0 < t.length - 16 - (t.length - 16) % 16
      · rw [if_pos hnb]
        by_cases hadj : ctx.enc = false ∧ ctx.pad = true ∧
            t.length - 16 - (t.length - 16) % 16 = t.length - 16
        · -- decrypt + padding, input ends on a block boundary: hold one block
          obtain ⟨he, hp, hq⟩ := hadj
          rw [if_pos ⟨he, hp, hq⟩]
          rw [if_neg (by omega : ¬ t.length - 16 < 16)]
          rw [hq]
          have hdd : (t.drop 16).drop (t.length - 16 - 16) =
              t.drop (t.length - 16) := by
            rw [List.drop_drop]
            congr 1
            omega
          rw [hdd]
          rw [trailingdata_fits [] (t.drop (t.length - 16))
                (by simp only [List.length_nil, List.length_drop, AES_BLOCK_SIZE]; omega),
              List.nil_append]
          have hcomb : t.take (t.length - 16) =
              t.take 16 ++ (t.drop 16).take (t.length - 16 - 16) := by
            conv_lhs =>
              rw [show t.length - 16 = 16 + (t.length - 16 - 16) from by omega]
            rw [List.take_add]
          rw [← cipherOp_append ctx _ _ (by rw [hlen_take]; decide), ← hcomb]
          have hH : heldLen ctx.enc ctx.pad t.length = 16 := by
            simp only [heldLen, AES_BLOCK_SIZE]
            rw [if_pos ⟨he, hp, by omega, by omega⟩]
          rw [hH]
        · rw [if_neg hadj]
          have hdd : (t.drop 16).drop (t.length - 16 - (t.length - 16) % 16) =
              t.drop (t.length - (t.length - 16) % 16) := by
            rw [List.drop_drop]
            congr 1
            omega
          rw [hdd]
          rw [trailingdata_fits [] (t.drop (t.length - (t.length - 16) % 16))
                (by simp only [List.length_nil, List.length_drop, AES_BLOCK_SIZE]; omega),
              List.nil_append]
          have hcomb : t.take (t.length - (t.length - 16) % 16) =
              t.take 16 ++ (t.drop 16).take (t.length - 16 - (t.length - 16) % 16) := by
            conv_lhs =>
              rw [show t.length - (t.length - 16) % 16 =
                    16 + (t.length - 16 - (t.length - 16) % 16) from by omega]
            rw [List.take_add]
          rw [← cipherOp_append ctx _ _ (by rw [hlen_take]; decide), ← hcomb]
          have hH : heldLen ctx.enc ctx.pad t.length = (t.length - 16) % 16 := by
            simp only [heldLen, AES_BLOCK_SIZE]
            split_ifs with hcond
            · exact absurd ⟨hcond.1, hcond.2.1, by omega⟩ hadj
            · omega
          rw [hH]
      · -- less than a block beyond the flushed one: retain the tail
        rw [if_neg hnb]
        rw [trailingdata_fits [] (t.drop 16)
              (by simp only [List.length_nil, List.length_drop, AES_BLOCK_SIZE]; omega),
            List.nil_append]
        have hH : heldLen ctx.enc ctx.pad t.length = t.length - 16 := by
          simp only [heldLen, AES_BLOCK_SIZE]
          split_ifs with hcond
          · omega
          · omega
        rw [hH]
        have hdt : t.length - (t.length - 16) = 16 := by omega
        rw [hdt]

theorem heldLen_pos_case (enc pad : Bool) (n : Nat) (he : enc = false)
    (hp : pad = true) :
    heldLen enc pad n = if n % 16 = 0 ∧ 0 < n then 16 else n % 16 := by
  simp [heldLen, AES_BLOCK_SIZE, he, hp]

theorem heldLen_neg_case (enc pad : Bool) (n : Nat)
    (h : ¬(enc = false ∧ pad = true)) : heldLen enc pad n = n % 16 := by
  rw [heldLen, if_neg (fun hc => h ⟨hc.1, hc.2.1⟩)]
  rfl

theorem heldLen_le_self (enc pad : Bool) (n : Nat) : heldLen enc pad n ≤ n := by
  simp only [heldLen, AES_BLOCK_SIZE]
  split_ifs with hc
  · omega
  · omega

theorem heldLen_le_block (enc pad : Bool) (n : Nat) :
    heldLen enc pad n ≤ AES_BLOCK_SIZE := by
  simp only [heldLen, AES_BLOCK_SIZE]
  split_ifs <;> omega

theorem heldLen_mod (enc pad : Bool) (n : Nat) :
    (n - heldLen enc pad n) % AES_BLOCK_SIZE = 0 := by
  simp only [heldLen, AES_BLOCK_SIZE]
  split_ifs <;> omega

theorem heldLen_full (enc pad : Bool) (n : Nat)
    (h : heldLen enc pad n = AES_BLOCK_SIZE) : enc = false ∧ pad = true := by
  simp only [heldLen, AES_BLOCK_SIZE] at h
  split_ifs at h with hc
  · exact ⟨hc.1, hc.2.1⟩
  · omega

theorem heldLen_heldLen_add (enc pad : Bool) (a m : Nat) :
    heldLen enc pad (heldLen enc pad a + m) = heldLen enc pad (a + m) := by
  by_cases hep : enc = false ∧ pad = true
  · rw [heldLen_pos_case _ _ _ hep.1 hep.2, heldLen_pos_case _ _ _ hep.1 hep.2,
        heldLen_pos_case _ _ _ hep.1 hep.2]
    split_ifs <;> omega
  · rw [heldLen_neg_case _ _ _ hep, heldLen_neg_case _ _ _ hep,
        heldLen_neg_case _ _ _ hep]
    omega

/-- The state left by `aes_update` satisfies the holdback discipline
again. -/
theorem goodPend_after (ctx : PROV_AES_KEY) (b : List Byte)
    (hb : b.length = heldLen ctx.enc ctx.pad b.length) :
    goodPend { ctx with buf := b } := by
  constructor
  · show b.length ≤ AES_BLOCK_SIZE
    rw [hb]
    exact heldLen_le_block _ _ _
  · intro hfull
    exact heldLen_full ctx.enc ctx.pad b.length (hb ▸ hfull)

/-- Multi-call version of `aes_update_eq`: any sequence of `update` calls
on a context obeying the holdback discipline succeeds, transforms exactly
the whole-block part of (pending ++ all input) that is not held back, and
retains the `heldLen` tail as the new pending buffer. -/
theorem updates_eq (cs : List (List Byte)) : ∀ (ctx : PROV_AES_KEY), goodPend ctx →
    updates ctx cs =
      some ({ ctx with
                buf := (ctx.buf ++ cs.flatten).drop ((ctx.buf ++ cs.flatten).length -
                  heldLen ctx.enc ctx.pad (ctx.buf ++ cs.flatten).length) },
            cipherOp ctx ((ctx.buf ++ cs.flatten).take ((ctx.buf ++ cs.flatten).length -
              heldLen ctx.enc ctx.pad (ctx.buf ++ cs.flatten).length))) := by
  induction cs with
  | nil =>
      intro ctx hg
      obtain ⟨hle, hfull⟩ := hg
      simp only [List.flatten_nil, List.append_nil, updates]
      have h0 : ctx.buf.length - heldLen ctx.enc ctx.pad ctx.buf.length = 0 := by
        by_cases hep : ctx.enc = false ∧ ctx.pad = true
        · rw [heldLen_pos_case _ _ _ hep.1 hep.2]
          simp only [AES_BLOCK_SIZE] at hle
          split_ifs <;> omega
        · rw [heldLen_neg_case _ _ _ hep]
          by_cases h16 : ctx.buf.length = AES_BLOCK_SIZE
          · exact absurd (hfull h16) hep
          · simp only [AES_BLOCK_SIZE] at hle h16
            omega
      rw [h0]
      simp only [List.drop_zero, List.take_zero, cipherOp_nil]
  | cons c cs2 ih =>
      intro ctx hg
      simp only [updates]
      rw [aes_update_eq ctx c hg.1]
      simp only []
      have hlenb : ((ctx.buf ++ c).drop ((ctx.buf ++ c).length -
          heldLen ctx.enc ctx.pad (ctx.buf ++ c).length)).length =
          heldLen ctx.enc ctx.pad (ctx.buf ++ c).length := by
        simp only [List.length_drop]
        have := heldLen_le_self ctx.enc ctx.pad (ctx.buf ++ c).length
        omega
      have hidem : heldLen ctx.enc ctx.pad
          (heldLen ctx.enc ctx.pad (ctx.buf ++ c).length) =
          heldLen ctx.enc ctx.pad (ctx.buf ++ c).length := by
        have h2 := heldLen_heldLen_add ctx.enc ctx.pad (ctx.buf ++ c).length 0
        simpa using h2
      rw [ih _ (goodPend_after ctx _ (by rw [hlenb]; exact hidem.symm))]
      dsimp only
      simp only [List.flatten_cons, ← List.append_assoc]
      set t1 := ctx.buf ++ c with ht1
      set H1 := heldLen ctx.enc ctx.pad t1.length with hH1
      set P1 := t1.length - H1 with hP1
      set F := cs2.flatten with hF
      set T2 := t1.drop P1 ++ F with hT2
      set H2 := heldLen ctx.enc ctx.pad T2.length with hH2
      have hH1le : H1 ≤ t1.length := hH1 ▸ heldLen_le_self ctx.enc ctx.pad t1.length
      have hlb1 : (t1.drop P1).length = H1 := by
        simp only [List.length_drop]
        omega
      have hT2len : T2.length = H1 + F.length := by
        rw [hT2, List.length_append, hlb1]
      have hH2le : H2 ≤ T2.length := hH2 ▸ heldLen_le_self ctx.enc ctx.pad T2.length
      have hlen1 : (t1.take P1).length = P1 := by
        simp only [List.length_take]
        omega
      have hlenTF : (t1 ++ F).length = t1.length + F.length := List.length_append _ _
      have hHeq : heldLen ctx.enc ctx.pad (t1.length + F.length) = H2 := by
        rw [hH2, hT2len, hH1, heldLen_heldLen_add]
      have hsplit : t1 ++ F = t1.take P1 ++ T2 := by
        rw [hT2, ← List.append_assoc, List.take_append_drop]
      have harith : t1.length + F.length - H2 =
          (t1.take P1).length + (T2.length - H2) := by
        rw [hlen1]
        omega
      have hmod : (t1.take P1).length % AES_BLOCK_SIZE = 0 := by
        rw [hlen1, hP1, hH1]
        exact heldLen_mod ctx.enc ctx.pad t1.length
      rw [hlenTF, hHeq, harith, hsplit, List.drop_append, List.take_append,
          cipherOp_buf_irrel, cipherOp_append ctx _ _ hmod]
      rfl

theorem cipherOp_enc (ctx : PROV_AES_KEY) (henc : ctx.enc = true)
    (l : List Byte) : cipherOp ctx l = ciphBlocks ctx.ciph.encBlock l := by
  rw [cipherOp, henc]
  rfl

theorem cipherOp_dec (ctx : PROV_AES_KEY) (henc : ctx.enc = false)
    (l : List Byte) : cipherOp ctx l = ciphBlocks ctx.ciph.decBlock l := by
  rw [cipherOp, henc]
  rfl

/-- `aes_einit` succeeds only by setting the direction to encrypt and
possibly replacing the IV and key; buffer, padding flag and dispatch are
untouched. -/
theorem aes_einit_inv (c c' : PROV_AES_KEY) (key iv : Option (List Byte))
    (h : aes_einit c key iv = some c') :
    c'.enc = true ∧ c'.pad = c.pad ∧ c'.buf = c.buf ∧ c'.ciph = c.ciph := by
  unfold aes_einit PROV_AES_KEY_generic_init ciph_init at h
  rcases key with _ | k <;> rcases iv with _ | v <;>
    simp only [Option.some.injEq] at h
  · rw [← h]
    exact ⟨rfl, rfl, rfl, rfl⟩
  · rw [← h]
    exact ⟨rfl, rfl, rfl, rfl⟩
  · split_ifs at h with hk
    simp only [Option.some.injEq] at h
    rw [← h]
    exact ⟨rfl, rfl, rfl, rfl⟩
  · split_ifs at h with hk
    simp only [Option.some.injEq] at h
    rw [← h]
    exact ⟨rfl, rfl, rfl, rfl⟩

/-- `aes_dinit` counterpart of `aes_einit_inv`. -/
theorem aes_dinit_inv (c c' : PROV_AES_KEY) (key iv : Option (List Byte))
    (h : aes_dinit c key iv = some c') :
    c'.enc = false ∧ c'.pad = c.pad ∧ c'.buf = c.buf ∧ c'.ciph = c.ciph := by
  unfold aes_dinit PROV_AES_KEY_generic_init ciph_init at h
  rcases key with _ | k <;> rcases iv with _ | v <;>
    simp only [Option.some.injEq] at h
  · rw [← h]
    exact ⟨rfl, rfl, rfl, rfl⟩
  · rw [← h]
    exact ⟨rfl, rfl, rfl, rfl⟩
  · split_ifs at h with hk
    simp only [Option.some.injEq] at h
    rw [← h]
    exact ⟨rfl, rfl, rfl, rfl⟩
  · split_ifs at h with hk
    simp only [Option.some.injEq] at h
    rw [← h]
    exact ⟨rfl, rfl, rfl, rfl⟩

/-- Every success path of `aes_final` leaves the pending buffer empty. -/
theorem aes_final_buf (c c' : PROV_AES_KEY) (out : List Byte)
    (h : aes_final c = some (c', out)) : c'.buf = [] := by
  unfold aes_final at h
  split_ifs at h with h1 h2 h3 h4 h5 h6 <;>
    simp only [Option.some.injEq, Prod.mk.injEq] at h
  · rw [← h.1]
  · rw [← h.1]
    exact List.length_eq_zero.mp h3
  · rw [← h.1]
  · rw [← h.1]
    exact List.length_eq_zero.mp h6.1
  · revert h
    cases unpadblock (cipherOp c c.buf) with
    | none => intro h; exact absurd h (by simp)
    | some r =>
        intro h
        simp only [Option.some.injEq, Prod.mk.injEq] at h
        rw [← h.1]
  · rw [← h.1]

theorem goodPend_nil (ctx : PROV_AES_KEY) (h : ctx.buf = []) : goodPend ctx := by
  constructor
  · rw [h]
    simp [AES_BLOCK_SIZE]
  · intro hf
    rw [h] at hf
    simp [AES_BLOCK_SIZE] at hf

/-- `aes_final` on an encrypt context with padding: pad and emit. -/
theorem aes_final_enc_pad (c : PROV_AES_KEY) (henc : c.enc = true)
    (hpad : c.pad = true) :
    aes_final c = some ({ c with buf := [] }, cipherOp c (padblock c.buf)) := by
  unfold aes_final
  rw [henc, hpad]
  simp

/-- `aes_final` on a decrypt context holding a full block. -/
theorem aes_final_dec_full (c : PROV_AES_KEY) (henc : c.enc = false)
    (hlen : c.buf.length = AES_BLOCK_SIZE) :
    aes_final c = (if c.pad then
        match unpadblock (cipherOp c c.buf) with
        | none => none
        | some stripped => some ({ c with buf := [] }, stripped)
      else some ({ c with buf := [] }, cipherOp c c.buf)) := by
  unfold aes_final
  rw [henc]
  simp only [Bool.false_eq_true, if_false]
  rw [if_neg (fun hne => hne hlen)]

theorem padblock_eq (b : List Byte) :
    padblock b = b ++ List.replicate (AES_BLOCK_SIZE - b.length)
      (AES_BLOCK_SIZE - b.length) := rfl

theorem padblock_length (b : List Byte) (hb : b.length ≤ AES_BLOCK_SIZE) :
    (padblock b).length = AES_BLOCK_SIZE := by
  simp only [padblock, List.length_append, List.length_replicate]
  omega

theorem unpadblock_valid (b : List Byte) (hb : b.length = AES_BLOCK_SIZE)
    (p : Nat) (hp : b.getLast?.getD 0 = p) (h1 : 1 ≤ p) (h2 : p ≤ AES_BLOCK_SIZE)
    (hall : b.drop (AES_BLOCK_SIZE - p) = List.replicate p p) :
    unpadblock b = some (b.take (AES_BLOCK_SIZE - p)) := by
  unfold unpadblock
  dsimp only
  rw [if_neg (fun hne => hne hb), hp,
      if_neg (by
        rintro (hc | hc)
        · subst hc
          exact absurd h1 (by decide)
        · exact absurd hc (not_lt.mpr h2)), if_pos (by rw [hall]; simp)]

theorem unpadblock_invalid_last (b : List Byte) (hb : b.length = AES_BLOCK_SIZE)
    (hbad : b.getLast?.getD 0 = 0 ∨ AES_BLOCK_SIZE < b.getLast?.getD 0) :
    unpadblock b = none := by
  unfold unpadblock
  dsimp only
  rw [if_neg (fun hne => hne hb), if_pos hbad]

theorem unpadblock_invalid_body (b : List Byte) (hb : b.length = AES_BLOCK_SIZE)
    (p : Nat) (hp : b.getLast?.getD 0 = p) (h1 : 1 ≤ p) (h2 : p ≤ AES_BLOCK_SIZE)
    (hall : b.drop (AES_BLOCK_SIZE - p) ≠ List.replicate p p) :
    unpadblock b = none := by
  unfold unpadblock
  dsimp only
  rw [if_neg (fun hne => hne hb), hp,
      if_neg (by
        rintro (hc | hc)
        · subst hc
          exact absurd h1 (by decide)
        · exact absurd hc (not_lt.mpr h2)), if_neg ?hc]
  case hc =>
    intro hAll
    apply hall
    rw [List.eq_replicate_iff]
    constructor
    · simp only [List.length_drop]
      omega
    · intro x hx
      have := List.all_eq_true.mp hAll x hx
      simpa using this

theorem unpadblock_some_inv (b r : List Byte) (h : unpadblock b = some r) :
    b.length = AES_BLOCK_SIZE ∧ r = b.take (AES_BLOCK_SIZE - b.getLast?.getD 0) ∧
    r.length = AES_BLOCK_SIZE - b.getLast?.getD 0 ∧
    1 ≤ b.getLast?.getD 0 ∧ b.getLast?.getD 0 ≤ AES_BLOCK_SIZE := by
  unfold unpadblock at h
  dsimp only at h
  split_ifs at h with h1 h2 h3
  rw [not_ne_iff] at h1
  rw [not_or] at h2
  simp only [Option.some.injEq] at h
  obtain ⟨h2a, h2b⟩ := h2
  have hple : b.getLast?.getD 0 ≤ AES_BLOCK_SIZE := not_lt.mp h2b
  have hp1 : 1 ≤ b.getLast?.getD 0 := Nat.one_le_iff_ne_zero.mpr h2a
  refine ⟨h1, h.symm, ?_, hp1, hple⟩
  rw [← h]
  simp only [List.length_take]
  omega

/-- A full encrypt stream with padding on: the emitted ciphertext is the
blockwise transform of the plaintext extended by its pad block. -/
theorem runStream_encrypt (ctx : PROV_AES_KEY) (henc : ctx.enc = true)
    (hpad : ctx.pad = true) (hbuf : ctx.buf = []) (cs : List (List Byte)) :
    runStream ctx cs =
      some (cipherOp ctx (cs.flatten ++
        List.replicate (AES_BLOCK_SIZE - cs.flatten.length % AES_BLOCK_SIZE)
          (AES_BLOCK_SIZE - cs.flatten.length % AES_BLOCK_SIZE))) := by
  unfold runStream
  rw [updates_eq cs ctx (goodPend_nil ctx hbuf)]
  dsimp only
  rw [hbuf]
  simp only [List.nil_append]
  have hH : heldLen ctx.enc ctx.pad cs.flatten.length =
      cs.flatten.length % 16 := by
    refine heldLen_neg_case _ _ _ ?_
    rintro ⟨he, -⟩
    rw [henc] at he
    cases he
  rw [hH]
  rw [aes_final_enc_pad
        { ctx with buf := cs.flatten.drop (cs.flatten.length - cs.flatten.length % 16) }
        henc hpad]
  dsimp only
  have hmodle : cs.flatten.length % 16 ≤ cs.flatten.length := Nat.mod_le _ _
  have hdl : (cs.flatten.drop
      (cs.flatten.length - cs.flatten.length % 16)).length =
      cs.flatten.length % 16 := by
    simp only [List.length_drop]
    omega
  rw [padblock_eq, hdl]
  have hA : AES_BLOCK_SIZE - cs.flatten.length % 16 =
      AES_BLOCK_SIZE - cs.flatten.length % AES_BLOCK_SIZE := rfl
  rw [hA]
  have hsplit : cs.flatten ++
      List.replicate (AES_BLOCK_SIZE - cs.flatten.length % AES_BLOCK_SIZE)
        (AES_BLOCK_SIZE - cs.flatten.length % AES_BLOCK_SIZE) =
      cs.flatten.take (cs.flatten.length - cs.flatten.length % 16) ++
        (cs.flatten.drop (cs.flatten.length - cs.flatten.length % 16) ++
          List.replicate (AES_BLOCK_SIZE - cs.flatten.length % AES_BLOCK_SIZE)
            (AES_BLOCK_SIZE - cs.flatten.length % AES_BLOCK_SIZE)) := by
    rw [← List.append_assoc, List.take_append_drop]
  rw [hsplit]
  have hmod : (cs.flatten.take
      (cs.flatten.length - cs.flatten.length % 16)).length % AES_BLOCK_SIZE = 0 := by
    simp only [List.length_take, AES_BLOCK_SIZE]
    omega
  rw [cipherOp_append ctx _ _ hmod]
  rfl

theorem heldLen_goodPend_all (ctx : PROV_AES_KEY) (hg : goodPend ctx) :
    heldLen ctx.enc ctx.pad ctx.buf.length = ctx.buf.length := by
  obtain ⟨hle, hfull⟩ := hg
  by_cases hep : ctx.enc = false ∧ ctx.pad = true
  · rw [heldLen_pos_case _ _ _ hep.1 hep.2]
    simp only [AES_BLOCK_SIZE] at hle
    split_ifs <;> omega
  · rw [heldLen_neg_case _ _ _ hep]
    by_cases h16 : ctx.buf.length = AES_BLOCK_SIZE
    · exact absurd (hfull h16) hep
    · simp only [AES_BLOCK_SIZE] at hle h16
      omega

/-! ## The claims -/

/-- Claim C10: calling `update` with a zero-length input is a no-op on every
reachable context state under an unchanged padding flag (at most one block
pending; a full pending block only on a padding-enabled decrypt stream):
it succeeds, reports zero output bytes, and leaves the entire context —
held-back full block included — unchanged. -/
theorem aes_update_nil_noop (ctx : PROV_AES_KEY)
    (h1 : ctx.buf.length ≤ AES_BLOCK_SIZE)
    (h2 : ctx.buf.length = AES_BLOCK_SIZE → ctx.enc = false ∧ ctx.pad = true) :
    aes_update ctx [] = some (ctx, []) := by
  rw [aes_update_eq ctx [] h1, List.append_nil,
      heldLen_goodPend_all ctx ⟨h1, h2⟩, Nat.sub_self]
  simp only [List.drop_zero, List.take_zero, cipherOp_nil]

theorem aes_update_nil_noop_witness :
    aes_update heldCtx [] = some (heldCtx, []) :=
  aes_update_nil_noop heldCtx (by decide) (by decide)

/-- Claim C5: on every context state within the pending-size invariant, `update`
succeeds, every input byte is either passed through the transform or
retained in `pending` (old pending + input = emitted + new pending, no
byte dropped), and the reported output length is the number of transformed
whole blocks times the block size. -/
theorem aes_update_conserves (ctx : PROV_AES_KEY) (x : List Byte)
    (hb : ctx.buf.length ≤ AES_BLOCK_SIZE)
    (hf : ∀ b : List Byte, b.length = AES_BLOCK_SIZE →
      ((if ctx.enc then ctx.ciph.encBlock else ctx.ciph.decBlock) b).length =
        AES_BLOCK_SIZE) :
    ∃ ctx' out, aes_update ctx x = some (ctx', out) ∧
      ctx.buf.length + x.length = out.length + ctx'.buf.length ∧
      ∃ k, out.length = AES_BLOCK_SIZE * k := by
  have hmod := heldLen_mod ctx.enc ctx.pad (ctx.buf ++ x).length
  have hle := heldLen_le_self ctx.enc ctx.pad (ctx.buf ++ x).length
  have hlt : ((ctx.buf ++ x).take ((ctx.buf ++ x).length -
      heldLen ctx.enc ctx.pad (ctx.buf ++ x).length)).length =
      (ctx.buf ++ x).length - heldLen ctx.enc ctx.pad (ctx.buf ++ x).length := by
    simp only [List.length_take]
    omega
  have hout : (cipherOp ctx ((ctx.buf ++ x).take ((ctx.buf ++ x).length -
      heldLen ctx.enc ctx.pad (ctx.buf ++ x).length))).length =
      (ctx.buf ++ x).length - heldLen ctx.enc ctx.pad (ctx.buf ++ x).length := by
    rw [cipherOp, ciphBlocks_length _ hf _ (by rw [hlt]; exact hmod), hlt]
  refine ⟨_, _, aes_update_eq ctx x hb, ?_, ?_⟩
  · dsimp only
    rw [hout]
    simp only [List.length_drop, List.length_append]
    have := List.length_append ctx.buf x
    omega
  · refine ⟨((ctx.buf ++ x).length -
      heldLen ctx.enc ctx.pad (ctx.buf ++ x).length) / AES_BLOCK_SIZE, ?_⟩
    rw [hout]
    simp only [AES_BLOCK_SIZE] at hmod ⊢
    omega

theorem aes_update_conserves_witness :
    ∃ ctx' out, aes_update encCtx [4, 5] = some (ctx', out) ∧
      encCtx.buf.length + ([4, 5] : List Byte).length =
        out.length + ctx'.buf.length ∧
      ∃ k, out.length = AES_BLOCK_SIZE * k :=
  aes_update_conserves encCtx [4, 5] (by decide) (fun b hb => hb)

/-- Claim C7: in every context state reachable from a fresh context by init,
update and final calls, the pending buffer holds at most one block. -/
theorem reachable_pending_le (ecb : PROV_AES_CIPHER) (c : PROV_AES_KEY)
    (h : Reachable ecb c) : c.buf.length ≤ AES_BLOCK_SIZE := by
  induction h with
  | newctx => exact Nat.zero_le _
  | einit c0 c' key iv hr heq ih =>
      rw [(aes_einit_inv c0 c' key iv heq).2.2.1]
      exact ih
  | dinit c0 c' key iv hr heq ih =>
      rw [(aes_dinit_inv c0 c' key iv heq).2.2.1]
      exact ih
  | update c0 c' x out hr heq ih =>
      rw [aes_update_eq c0 x ih] at heq
      simp only [Option.some.injEq, Prod.mk.injEq] at heq
      obtain ⟨h1, -⟩ := heq
      rw [← h1]
      dsimp only
      simp only [List.length_drop]
      have hA := heldLen_le_block c0.enc c0.pad (c0.buf ++ x).length
      have hS := heldLen_le_self c0.enc c0.pad (c0.buf ++ x).length
      omega
  | final c0 c' out hr heq ih =>
      rw [aes_final_buf c0 c' out heq]
      exact Nat.zero_le _

theorem reachable_pending_le_witness :
    Reachable idCiph (aes_256_ecb_newctx idCiph) ∧
      (aes_256_ecb_newctx idCiph).buf.length ≤ AES_BLOCK_SIZE :=
  ⟨Reachable.newctx, reachable_pending_le idCiph _ Reachable.newctx⟩

/-- Claim C4: `final` on an encrypt stream: with padding it pads the pending
bytes to exactly one block, transforms them, and emits one block; with
padding off it succeeds emitting nothing on an empty buffer, fails on a
partial block, and transforms and emits a full block; every success path
resets `pending` to empty. -/
theorem aes_final_encrypt_cases (ctx : PROV_AES_KEY) (henc : ctx.enc = true)
    (hb : ctx.buf.length ≤ AES_BLOCK_SIZE)
    (hf : ∀ b : List Byte, b.length = AES_BLOCK_SIZE →
      (ctx.ciph.encBlock b).length = AES_BLOCK_SIZE) :
    (ctx.pad = true →
       aes_final ctx = some ({ ctx with buf := [] },
         cipherOp ctx (padblock ctx.buf)) ∧
       (padblock ctx.buf).length = AES_BLOCK_SIZE ∧
       (cipherOp ctx (padblock ctx.buf)).length = AES_BLOCK_SIZE) ∧
    (ctx.pad = false → ctx.buf = [] → aes_final ctx = some (ctx, [])) ∧
    (ctx.pad = false → 0 < ctx.buf.length → ctx.buf.length < AES_BLOCK_SIZE →
       aes_final ctx = none) ∧
    (ctx.pad = false → ctx.buf.length = AES_BLOCK_SIZE →
       aes_final ctx = some ({ ctx with buf := [] }, cipherOp ctx ctx.buf) ∧
       (cipherOp ctx ctx.buf).length = AES_BLOCK_SIZE) := by
  refine ⟨?_, ?_, ?_, ?_⟩
  · intro hpad
    refine ⟨aes_final_enc_pad ctx henc hpad, padblock_length ctx.buf hb, ?_⟩
    rw [cipherOp_enc ctx henc,
        ciphBlocks_length _ hf _
          (by rw [padblock_length ctx.buf hb]; exact Nat.mod_self _),
        padblock_length ctx.buf hb]
  · intro hpad hnil
    unfold aes_final
    rw [henc, hpad]
    rw [if_pos rfl, if_neg (by simp), if_pos (by rw [hnil]; rfl)]
  · intro hpad h0 hlt
    unfold aes_final
    rw [henc, hpad]
    rw [if_pos rfl, if_neg (by simp), if_neg (by omega), if_pos (by omega)]
  · intro hpad hfull
    unfold aes_final
    rw [henc, hpad]
    rw [if_pos rfl, if_neg (by simp), if_neg (by rw [hfull]; decide),
        if_neg (fun hne => hne hfull)]
    exact ⟨rfl, by
      rw [cipherOp_enc ctx henc,
          ciphBlocks_length _ hf _ (by rw [hfull]; exact Nat.mod_self _), hfull]⟩

theorem aes_final_encrypt_cases_witness :
    aes_final encCtx = some ({ encCtx with buf := [] },
      cipherOp encCtx (padblock encCtx.buf)) ∧
    (padblock encCtx.buf).length = AES_BLOCK_SIZE ∧
    (cipherOp encCtx (padblock encCtx.buf)).length = AES_BLOCK_SIZE :=
  (aes_final_encrypt_cases encCtx rfl (by decide) (fun b hb => hb)).1 rfl

/-- Claim C3: `final` on a decrypt stream succeeds only with exactly one full
pending block, or with padding disabled and an empty buffer (emitting
nothing); with a full held block it transforms it, validates and strips
padding when the flag is set (failing on invalid padding), emits
block_size minus the pad length (block_size when padding is off), and
resets `pending` to empty. -/
theorem aes_final_decrypt_cases (ctx : PROV_AES_KEY) (henc : ctx.enc = false)
    (hf : ∀ b : List Byte, b.length = AES_BLOCK_SIZE →
      (ctx.ciph.decBlock b).length = AES_BLOCK_SIZE) :
    ((aes_final ctx).isSome →
       ctx.buf.length = AES_BLOCK_SIZE ∨ (ctx.pad = false ∧ ctx.buf = [])) ∧
    (ctx.pad = false → ctx.buf = [] → aes_final ctx = some (ctx, [])) ∧
    (ctx.buf.length = AES_BLOCK_SIZE → ctx.pad = false →
       aes_final ctx = some ({ ctx with buf := [] }, cipherOp ctx ctx.buf) ∧
       (cipherOp ctx ctx.buf).length = AES_BLOCK_SIZE) ∧
    (ctx.buf.length = AES_BLOCK_SIZE → ctx.pad = true →
       (unpadblock (cipherOp ctx ctx.buf) = none → aes_final ctx = none) ∧
       (∀ r, unpadblock (cipherOp ctx ctx.buf) = some r →
          aes_final ctx = some ({ ctx with buf := [] }, r) ∧
          r.length = AES_BLOCK_SIZE - (cipherOp ctx ctx.buf).getLast?.getD 0 ∧
          1 ≤ (cipherOp ctx ctx.buf).getLast?.getD 0 ∧
          (cipherOp ctx ctx.buf).getLast?.getD 0 ≤ AES_BLOCK_SIZE)) := by
  refine ⟨?_, ?_, ?_, ?_⟩
  · intro hs
    by_cases hfull : ctx.buf.length = AES_BLOCK_SIZE
    · exact Or.inl hfull
    · right
      unfold aes_final at hs
      rw [henc, if_neg (by simp), if_pos hfull] at hs
      split_ifs at hs with hc
      · exact ⟨hc.2, List.length_eq_zero.mp hc.1⟩
      · simp at hs
  · intro hpad hnil
    unfold aes_final
    rw [henc, if_neg (by simp), if_pos (by rw [hnil]; decide),
        if_pos ⟨by rw [hnil]; rfl, hpad⟩]
  · intro hfull hpad
    rw [aes_final_dec_full ctx henc hfull, hpad]
    rw [if_neg (by simp)]
    refine ⟨rfl, ?_⟩
    rw [cipherOp_dec ctx henc,
        ciphBlocks_length _ hf _ (by rw [hfull]; exact Nat.mod_self _), hfull]
  · intro hfull hpad
    rw [aes_final_dec_full ctx henc hfull, hpad, if_pos rfl]
    constructor
    · intro hnone
      rw [hnone]
    · intro r hr
      rw [hr]
      obtain ⟨hlen16, hrv, hrlen, hp1, hple⟩ := unpadblock_some_inv _ r hr
      exact ⟨rfl, hrlen, hp1, hple⟩

theorem aes_final_decrypt_cases_witness :
    aes_final { aes_256_ecb_newctx idCiph with pad := false } =
      some ({ aes_256_ecb_newctx idCiph with pad := false }, []) :=
  (aes_final_decrypt_cases { aes_256_ecb_newctx idCiph with pad := false }
    rfl (fun b hb => hb)).2.1 rfl rfl

/-- Claim C2: on a decrypt stream with padding enabled, after any sequence of
`update` calls whose total input ends on a (nonzero) block boundary, the
last full block is retained in `pending` (length exactly block_size) and
only the earlier blocks were transformed; and a held full block is kept by
a further `update` exactly when the stream is decrypting with padding on
and no further input is supplied, and is flushed to the transform when the
stream encrypts, or padding is off, or more input arrives. -/
theorem decrypt_holdback (ctx : PROV_AES_KEY) (henc : ctx.enc = false)
    (hpad : ctx.pad = true) (hbuf : ctx.buf = []) (cs : List (List Byte))
    (hmod : cs.flatten.length % AES_BLOCK_SIZE = 0) (hne : cs.flatten ≠ []) :
    (∃ ctx', updates ctx cs = some (ctx',
        cipherOp ctx (cs.flatten.take (cs.flatten.length - AES_BLOCK_SIZE))) ∧
      ctx'.buf = cs.flatten.drop (cs.flatten.length - AES_BLOCK_SIZE) ∧
      ctx'.buf.length = AES_BLOCK_SIZE) ∧
    (∀ c : PROV_AES_KEY, c.buf.length = AES_BLOCK_SIZE →
       (c.enc = false → c.pad = true → aes_update c [] = some (c, [])) ∧
       (c.enc = true ∨ c.pad = false →
          ∃ c' rest, aes_update c [] = some (c', cipherOp c c.buf ++ rest)) ∧
       (∀ x : List Byte, x ≠ [] →
          ∃ c' rest, aes_update c x = some (c', cipherOp c c.buf ++ rest))) := by
  constructor
  · have hL0 : 0 < cs.flatten.length := List.length_pos.mpr hne
    have hH : heldLen ctx.enc ctx.pad cs.flatten.length = AES_BLOCK_SIZE := by
      rw [heldLen_pos_case _ _ _ henc hpad, if_pos ⟨hmod, hL0⟩]
      rfl
    refine ⟨{ ctx with
        buf := cs.flatten.drop (cs.flatten.length - AES_BLOCK_SIZE) }, ?_, rfl, ?_⟩
    · rw [updates_eq cs ctx (goodPend_nil ctx hbuf)]
      rw [hbuf]
      simp only [List.nil_append]
      rw [hH]
    · show (cs.flatten.drop (cs.flatten.length - AES_BLOCK_SIZE)).length =
        AES_BLOCK_SIZE
      simp only [List.length_drop]
      simp only [AES_BLOCK_SIZE] at hmod ⊢
      omega
  · intro c hc16
    refine ⟨?_, ?_, ?_⟩
    · intro henc2 hpad2
      have hH2 : heldLen c.enc c.pad c.buf.length = c.buf.length := by
        rw [heldLen_pos_case _ _ _ henc2 hpad2, hc16, if_pos (by decide)]
        rfl
      rw [aes_update_eq c [] (le_of_eq hc16), List.append_nil, hH2,
          Nat.sub_self]
      simp only [List.drop_zero, List.take_zero, cipherOp_nil]
    · intro hd
      have hep : ¬(c.enc = false ∧ c.pad = true) := by
        rintro ⟨he, hp⟩
        rcases hd with h1 | h1
        · rw [h1] at he
          cases he
        · rw [h1] at hp
          cases hp
      have hH2 : heldLen c.enc c.pad c.buf.length = 0 := by
        rw [heldLen_neg_case _ _ _ hep, hc16]
        decide
      refine ⟨{ c with buf := [] }, [], ?_⟩
      rw [aes_update_eq c [] (le_of_eq hc16), List.append_nil, hH2,
          Nat.sub_zero, List.drop_length, List.take_length, List.append_nil]
    · intro x hx
      have hxpos : 0 < x.length := List.length_pos.mpr hx
      have hHle := heldLen_le_block c.enc c.pad (c.buf ++ x).length
      have hmod2 := heldLen_mod c.enc c.pad (c.buf ++ x).length
      have hLlen : (c.buf ++ x).length = AES_BLOCK_SIZE + x.length := by
        rw [List.length_append, hc16]
      have htake : (c.buf ++ x).take ((c.buf ++ x).length -
          heldLen c.enc c.pad (c.buf ++ x).length) =
          c.buf ++ x.take ((c.buf ++ x).length -
            heldLen c.enc c.pad (c.buf ++ x).length - AES_BLOCK_SIZE) := by
        conv_lhs =>
          rw [show (c.buf ++ x).length -
                heldLen c.enc c.pad (c.buf ++ x).length =
              c.buf.length + ((c.buf ++ x).length -
                heldLen c.enc c.pad (c.buf ++ x).length - AES_BLOCK_SIZE) from by
            rw [hc16]
            simp only [AES_BLOCK_SIZE] at *
            omega]
        rw [List.take_append]
      refine ⟨{ c with buf := (c.buf ++ x).drop ((c.buf ++ x).length -
          heldLen c.enc c.pad (c.buf ++ x).length) },
        cipherOp c (x.take ((c.buf ++ x).length -
          heldLen c.enc c.pad (c.buf ++ x).length - AES_BLOCK_SIZE)), ?_⟩
      rw [aes_update_eq c x (le_of_eq hc16), htake,
          cipherOp_append c _ _ (by rw [hc16]; exact Nat.mod_self _)]

theorem decrypt_holdback_witness :
    ∃ ctx', updates (aes_256_ecb_newctx idCiph) [List.replicate 16 5] =
        some (ctx', cipherOp (aes_256_ecb_newctx idCiph)
          (([List.replicate 16 5] : List (List Byte)).flatten.take
            (([List.replicate 16 5] : List (List Byte)).flatten.length -
              AES_BLOCK_SIZE))) ∧
      ctx'.buf = ([List.replicate 16 5] : List (List Byte)).flatten.drop
        (([List.replicate 16 5] : List (List Byte)).flatten.length -
          AES_BLOCK_SIZE) ∧
      ctx'.buf.length = AES_BLOCK_SIZE :=
  (decrypt_holdback (aes_256_ecb_newctx idCiph) rfl rfl rfl
    [List.replicate 16 5] (by decide) (by decide)).1

/-- Claim C8: `aes_dupctx` is the whole-struct copy `*ret = *in`; per the data
model of the spec the pending buffer, IV and key state are by-value fields of the
struct, so the copy owns independent storage.  The duplicate carries the
identical configuration, and — contexts being immutable values in this
embedding — running operations on the duplicate yields exactly the results
of running them on the original while the original value is untouched. -/
theorem aes_dupctx_indep (ctx : PROV_AES_KEY) :
    (aes_dupctx ctx).enc = ctx.enc ∧ (aes_dupctx ctx).pad = ctx.pad ∧
    (aes_dupctx ctx).buf = ctx.buf ∧ (aes_dupctx ctx).iv = ctx.iv ∧
    (aes_dupctx ctx).keylen = ctx.keylen ∧ (aes_dupctx ctx).key = ctx.key ∧
    (aes_dupctx ctx).mode = ctx.mode ∧ (aes_dupctx ctx).ciph = ctx.ciph ∧
    (∀ x, aes_update (aes_dupctx ctx) x = aes_update ctx x) ∧
    (aes_final (aes_dupctx ctx) = aes_final ctx) :=
  ⟨rfl, rfl, rfl, rfl, rfl, rfl, rfl, rfl, fun _ => rfl, rfl⟩

/-- Locating a key after replacing its first occurrence finds the
replacement. -/
theorem locate_replaceParam (ps : List OSSL_PARAM) (k : String)
    (p p' : OSSL_PARAM) (h : OSSL_PARAM_locate ps k = some p)
    (hk : p'.key = k) :
    OSSL_PARAM_locate (replaceParam ps k p') k = some p' := by
  induction ps with
  | nil => simp [OSSL_PARAM_locate] at h
  | cons q rest ih =>
      unfold OSSL_PARAM_locate at h ⊢
      unfold replaceParam
      by_cases hq : (q.key == k) = true
      · rw [if_pos hq]
        rw [List.find?_cons_of_pos _ (by simp [hk])]
      · rw [if_neg hq]
        rw [List.find?_cons_of_neg _ (by simpa using hq)] at h
        rw [List.find?_cons_of_neg _ (by simpa using hq)]
        exact ih h

/-- Claim C9: `set_params` with a wrong-typed padding parameter fails and leaves
the context untouched; `set_params` without the padding key succeeds
without touching the context; `get_params` with the padding key present on
an integer-capable slot reports the current padding flag into that slot. -/
theorem aes_params_cases (ctx : PROV_AES_KEY) (ps : List OSSL_PARAM) :
    (∀ p, OSSL_PARAM_locate ps OSSL_CIPHER_PARAM_PADDING = some p →
       p.data = ParamData.other → aes_set_params ctx ps = (false, ctx)) ∧
    (OSSL_PARAM_locate ps OSSL_CIPHER_PARAM_PADDING = none →
       aes_set_params ctx ps = (true, ctx)) ∧
    (∀ p v, OSSL_PARAM_locate ps OSSL_CIPHER_PARAM_PADDING = some p →
       p.data = ParamData.int v →
       ∃ ps', aes_get_params ctx ps = some ps' ∧
         OSSL_PARAM_locate ps' OSSL_CIPHER_PARAM_PADDING =
           some ⟨p.key, ParamData.int ((if ctx.pad then 1 else 0 : Nat) : Int)⟩) := by
  refine ⟨?_, ?_, ?_⟩
  · intro p hp hother
    unfold aes_set_params
    rw [hp]
    dsimp only
    unfold OSSL_PARAM_get_int
    rw [hother]
  · intro hnone
    unfold aes_set_params
    rw [hnone]
  · intro p v hp hint
    have hkey : p.key = OSSL_CIPHER_PARAM_PADDING := by
      have := List.find?_some hp
      simpa using this
    unfold aes_get_params
    rw [hp]
    dsimp only
    unfold OSSL_PARAM_set_uint
    rw [hint]
    exact ⟨_, rfl, locate_replaceParam ps _ p
      ⟨p.key, ParamData.int ((if ctx.pad then 1 else 0 : Nat) : Int)⟩ hp hkey⟩

theorem aes_params_cases_witness :
    aes_set_params (aes_256_ecb_newctx idCiph)
      [⟨OSSL_CIPHER_PARAM_PADDING, ParamData.other⟩] =
      (false, aes_256_ecb_newctx idCiph) :=
  (aes_params_cases (aes_256_ecb_newctx idCiph)
    [⟨OSSL_CIPHER_PARAM_PADDING, ParamData.other⟩]).1
    ⟨OSSL_CIPHER_PARAM_PADDING, ParamData.other⟩ rfl rfl

/-- Claim C6: with padding enabled, encrypt finalization appends exactly
`p = block_size - (len mod block_size)` pad bytes with `p` in
`[1, block_size]` (a full extra block when the plaintext is block-aligned,
so padding is never omitted), every pad byte carrying the value `p`: the
ciphertext is the blockwise transform of plaintext ++ p pad bytes of value
p, of length `len + p`.  Decrypt-side validation rejects a last byte
outside `[1, block_size]` and rejects unless all of the last `p` bytes
equal `p`. -/
theorem padding_scheme (ctx : PROV_AES_KEY) (henc : ctx.enc = true)
    (hpad : ctx.pad = true) (hbuf : ctx.buf = [])
    (hf : ∀ b : List Byte, b.length = AES_BLOCK_SIZE →
      (ctx.ciph.encBlock b).length = AES_BLOCK_SIZE) (cs : List (List Byte)) :
    (1 ≤ AES_BLOCK_SIZE - cs.flatten.length % AES_BLOCK_SIZE ∧
     AES_BLOCK_SIZE - cs.flatten.length % AES_BLOCK_SIZE ≤ AES_BLOCK_SIZE ∧
     runStream ctx cs = some (cipherOp ctx (cs.flatten ++
       List.replicate (AES_BLOCK_SIZE - cs.flatten.length % AES_BLOCK_SIZE)
         (AES_BLOCK_SIZE - cs.flatten.length % AES_BLOCK_SIZE))) ∧
     (cipherOp ctx (cs.flatten ++
       List.replicate (AES_BLOCK_SIZE - cs.flatten.length % AES_BLOCK_SIZE)
         (AES_BLOCK_SIZE - cs.flatten.length % AES_BLOCK_SIZE))).length =
       cs.flatten.length +
         (AES_BLOCK_SIZE - cs.flatten.length % AES_BLOCK_SIZE)) ∧
    (∀ b : List Byte, b.length = AES_BLOCK_SIZE →
       ((b.getLast?.getD 0 = 0 ∨ AES_BLOCK_SIZE < b.getLast?.getD 0) →
          unpadblock b = none) ∧
       (∀ p, b.getLast?.getD 0 = p → 1 ≤ p → p ≤ AES_BLOCK_SIZE →
          b.drop (AES_BLOCK_SIZE - p) ≠ List.replicate p p →
          unpadblock b = none) ∧
       (∀ p, b.getLast?.getD 0 = p → 1 ≤ p → p ≤ AES_BLOCK_SIZE →
          b.drop (AES_BLOCK_SIZE - p) = List.replicate p p →
          unpadblock b = some (b.take (AES_BLOCK_SIZE - p)))) := by
  have hr_lt : cs.flatten.length % AES_BLOCK_SIZE < AES_BLOCK_SIZE :=
    Nat.mod_lt _ (by decide)
  refine ⟨⟨by omega, by omega, runStream_encrypt ctx henc hpad hbuf cs, ?_⟩, ?_⟩
  · have hlenQ : (cs.flatten ++
        List.replicate (AES_BLOCK_SIZE - cs.flatten.length % AES_BLOCK_SIZE)
          (AES_BLOCK_SIZE - cs.flatten.length % AES_BLOCK_SIZE)).length =
        cs.flatten.length +
          (AES_BLOCK_SIZE - cs.flatten.length % AES_BLOCK_SIZE) := by
      rw [List.length_append, List.length_replicate]
    have hmodQ : (cs.flatten ++
        List.replicate (AES_BLOCK_SIZE - cs.flatten.length % AES_BLOCK_SIZE)
          (AES_BLOCK_SIZE - cs.flatten.length % AES_BLOCK_SIZE)).length %
        AES_BLOCK_SIZE = 0 := by
      rw [hlenQ]
      simp only [AES_BLOCK_SIZE] at *
      omega
    rw [cipherOp_enc ctx henc, ciphBlocks_length _ hf _ hmodQ, hlenQ]
  · intro b hb
    exact ⟨unpadblock_invalid_last b hb,
      fun p hp h1 h2 hne => unpadblock_invalid_body b hb p hp h1 h2 hne,
      fun p hp h1 h2 heq => unpadblock_valid b hb p hp h1 h2 heq⟩

theorem padding_scheme_witness :
    runStream { aes_256_ecb_newctx idCiph with enc := true } [[1, 2, 3]] =
      some (cipherOp { aes_256_ecb_newctx idCiph with enc := true }
        (([[1, 2, 3]] : List (List Byte)).flatten ++
          List.replicate (AES_BLOCK_SIZE -
            ([[1, 2, 3]] : List (List Byte)).flatten.length % AES_BLOCK_SIZE)
            (AES_BLOCK_SIZE -
              ([[1, 2, 3]] : List (List Byte)).flatten.length % AES_BLOCK_SIZE))) :=
  (padding_scheme { aes_256_ecb_newctx idCiph with enc := true } rfl rfl rfl
    (fun b hb => hb) [[1, 2, 3]]).1.2.2.1

/-- `aes_final` on a decrypt context with padding, a full held block and
successfully validated padding. -/
theorem aes_final_dec_unpad (c : PROV_AES_KEY) (henc : c.enc = false)
    (hpad : c.pad = true) (hlen : c.buf.length = AES_BLOCK_SIZE)
    (r : List Byte) (hu : unpadblock (cipherOp c c.buf) = some r) :
    aes_final c = some ({ c with buf := [] }, r) := by
  rw [aes_final_dec_full c henc hlen, hpad, if_pos rfl, hu]

/-- Claim C1: for every plaintext of at most ten blocks, every chunking of the
`update` calls on the encrypt side, and every chunking of the resulting
ciphertext on the decrypt side, encrypting with padding enabled
(encrypt_init, updates, final) and then decrypting (decrypt_init, updates,
final) returns exactly the plaintext, for any block transform whose
decrypt function inverts its encrypt function on blocks. -/
theorem encrypt_decrypt_roundtrip (ciph : PROV_AES_CIPHER)
    (hlen : ∀ b : List Byte, b.length = AES_BLOCK_SIZE →
      (ciph.encBlock b).length = AES_BLOCK_SIZE)
    (hinv : ∀ b : List Byte, b.length = AES_BLOCK_SIZE →
      ciph.decBlock (ciph.encBlock b) = b)
    (key iv : List Byte) (ectx dctx : PROV_AES_KEY)
    (hE : aes_einit (aes_256_ecb_newctx ciph) (some key) (some iv) = some ectx)
    (hD : aes_dinit (aes_256_ecb_newctx ciph) (some key) (some iv) = some dctx)
    (cs : List (List Byte))
    (hP : cs.flatten.length ≤ 10 * AES_BLOCK_SIZE)
    (C : List Byte) (hC : runStream ectx cs = some C)
    (ds : List (List Byte)) (hds : ds.flatten = C) :
    runStream dctx ds = some cs.flatten := by
  obtain ⟨hEe, hEp0, hEb0, hEc0⟩ := aes_einit_inv _ _ _ _ hE
  obtain ⟨hDe, hDp0, hDb0, hDc0⟩ := aes_dinit_inv _ _ _ _ hD
  have hEp : ectx.pad = true := hEp0
  have hEb : ectx.buf = [] := hEb0
  have hEc : ectx.ciph = ciph := hEc0
  have hDp : dctx.pad = true := hDp0
  have hDb : dctx.buf = [] := hDb0
  have hDc : dctx.ciph = ciph := hDc0
  rw [runStream_encrypt ectx hEe hEp hEb cs] at hC
  simp only [Option.some.injEq] at hC
  set P := cs.flatten with hPdef
  set p := AES_BLOCK_SIZE - P.length % AES_BLOCK_SIZE with hpdef
  set R := List.replicate p p with hRdef
  have hr_lt : P.length % AES_BLOCK_SIZE < AES_BLOCK_SIZE :=
    Nat.mod_lt _ (by decide)
  have hr_le : P.length % AES_BLOCK_SIZE ≤ P.length := Nat.mod_le _ _
  have hp1 : 1 ≤ p := by omega
  have hpA : p ≤ AES_BLOCK_SIZE := by omega
  have hRlen : R.length = p := List.length_replicate p p
  have hQlen : (P ++ R).length = P.length + p := by
    rw [List.length_append, hRlen]
  have hQmod : (P ++ R).length % AES_BLOCK_SIZE = 0 := by
    rw [hQlen]
    simp only [AES_BLOCK_SIZE] at hpdef ⊢
    omega
  have hCeq : C = ciphBlocks ciph.encBlock (P ++ R) := by
    rw [← hC, cipherOp_enc ectx hEe, hEc]
  have hClen : C.length = P.length + p := by
    rw [hCeq, ciphBlocks_length _ hlen _ hQmod, hQlen]
  have hCmod : C.length % AES_BLOCK_SIZE = 0 := by
    rw [hClen]
    simp only [AES_BLOCK_SIZE] at hpdef ⊢
    omega
  have hCpos : C ≠ [] := by
    intro h0
    rw [h0] at hClen
    simp only [List.length_nil] at hClen
    omega
  unfold runStream
  rw [updates_eq ds dctx (goodPend_nil dctx hDb)]
  dsimp only
  rw [hDb]
  simp only [List.nil_append]
  rw [hds]
  have hH : heldLen dctx.enc dctx.pad C.length = AES_BLOCK_SIZE := by
    rw [heldLen_pos_case _ _ _ hDe hDp,
        if_pos ⟨hCmod, List.length_pos.mpr hCpos⟩]
    rfl
  rw [hH]
  set front := (P ++ R).take ((P ++ R).length - AES_BLOCK_SIZE) with hfrontdef
  set lastb := (P ++ R).drop ((P ++ R).length - AES_BLOCK_SIZE) with hlastdef
  have hfrontlen : front.length = (P ++ R).length - AES_BLOCK_SIZE := by
    rw [hfrontdef]
    simp only [List.length_take]
    omega
  have hfrontmod : front.length % AES_BLOCK_SIZE = 0 := by
    rw [hfrontlen]
    simp only [AES_BLOCK_SIZE] at hQmod ⊢
    omega
  have hQge : AES_BLOCK_SIZE ≤ (P ++ R).length := by
    rw [hQlen]
    omega
  have hlastlen : lastb.length = AES_BLOCK_SIZE := by
    rw [hlastdef]
    simp only [List.length_drop]
    omega
  have hsplitQ : P ++ R = front ++ lastb := (List.take_append_drop _ _).symm
  have hCapp : C = ciphBlocks ciph.encBlock front ++ ciph.encBlock lastb := by
    rw [hCeq]
    conv_lhs => rw [hsplitQ]
    rw [ciphBlocks_append _ _ _ hfrontmod, ciphBlocks_block _ _ hlastlen]
  have hcbflen : (ciphBlocks ciph.encBlock front).length = front.length :=
    ciphBlocks_length _ hlen _ hfrontmod
  have hElast_len : (ciph.encBlock lastb).length = AES_BLOCK_SIZE :=
    hlen _ hlastlen
  have happlen : (ciphBlocks ciph.encBlock front ++
      ciph.encBlock lastb).length = front.length + AES_BLOCK_SIZE := by
    rw [List.length_append, hcbflen, hElast_len]
  have htakeC : C.take (C.length - AES_BLOCK_SIZE) =
      ciphBlocks ciph.encBlock front := by
    rw [hCapp, happlen,
        show front.length + AES_BLOCK_SIZE - AES_BLOCK_SIZE = front.length from
          by omega,
        ← hcbflen, List.take_left]
  have hdropC : C.drop (C.length - AES_BLOCK_SIZE) = ciph.encBlock lastb := by
    rw [hCapp, happlen,
        show front.length + AES_BLOCK_SIZE - AES_BLOCK_SIZE = front.length from
          by omega,
        ← hcbflen, List.drop_left]
  have hout1 : cipherOp dctx (C.take (C.length - AES_BLOCK_SIZE)) = front := by
    rw [htakeC, cipherOp_dec dctx hDe, hDc,
        ciphBlocks_inv _ _ hlen hinv _ hfrontmod]
  have hblen : (C.drop (C.length - AES_BLOCK_SIZE)).length = AES_BLOCK_SIZE := by
    rw [hdropC, hElast_len]
  have hdecblock : cipherOp dctx (C.drop (C.length - AES_BLOCK_SIZE)) = lastb := by
    rw [hdropC, cipherOp_dec dctx hDe, hDc,
        ciphBlocks_block _ _ hElast_len, hinv _ hlastlen]
  have hlast_decomp : lastb =
      P.drop (P.length - P.length % AES_BLOCK_SIZE) ++ R := by
    rw [hlastdef,
        show (P ++ R).length - AES_BLOCK_SIZE =
            P.length - P.length % AES_BLOCK_SIZE from by
          rw [hQlen]
          simp only [AES_BLOCK_SIZE] at hpdef ⊢
          omega,
        List.drop_append_of_le_length (Nat.sub_le _ _)]
  have hl1len : (P.drop (P.length - P.length % AES_BLOCK_SIZE)).length =
      P.length % AES_BLOCK_SIZE := by
    simp only [List.length_drop]
    omega
  have hRne : R ≠ [] := by
    apply List.length_pos.mp
    rw [hRlen]
    omega
  have hlastlast : lastb.getLast?.getD 0 = p := by
    rw [hlast_decomp, List.getLast?_append_of_ne_nil _ hRne, hRdef,
        List.getLast?_replicate, if_neg (by omega)]
    rfl
  have hsubp : AES_BLOCK_SIZE - p = P.length % AES_BLOCK_SIZE := by
    simp only [AES_BLOCK_SIZE] at hpdef ⊢
    omega
  have hlastdrop : lastb.drop (AES_BLOCK_SIZE - p) = R := by
    rw [hlast_decomp, hsubp, List.drop_left' hl1len]
  have hlasttake : lastb.take (AES_BLOCK_SIZE - p) =
      P.drop (P.length - P.length % AES_BLOCK_SIZE) := by
    rw [hlast_decomp, hsubp, List.take_left' hl1len]
  have hu2 : unpadblock (cipherOp dctx (C.drop (C.length - AES_BLOCK_SIZE))) =
      some (P.drop (P.length - P.length % AES_BLOCK_SIZE)) := by
    rw [hdecblock,
        unpadblock_valid lastb hlastlen p hlastlast hp1 hpA
          (by rw [hlastdrop]),
        hlasttake]
  rw [aes_final_dec_unpad
        { dctx with buf := C.drop (C.length - AES_BLOCK_SIZE) }
        hDe hDp hblen (P.drop (P.length - P.length % AES_BLOCK_SIZE)) hu2]
  dsimp only
  rw [hout1]
  have hfront_eq : front = P.take (P.length - P.length % AES_BLOCK_SIZE) := by
    rw [hfrontdef,
        show (P ++ R).length - AES_BLOCK_SIZE =
            P.length - P.length % AES_BLOCK_SIZE from by
          rw [hQlen]
          simp only [AES_BLOCK_SIZE] at hpdef ⊢
          omega,
        List.take_append_of_le_length (Nat.sub_le _ _)]
  rw [hfront_eq, List.take_append_drop]


theorem encrypt_decrypt_roundtrip_witness :
    runStream dctxW [cipherOp ectxW (([[]] : List (List Byte)).flatten ++
      List.replicate (AES_BLOCK_SIZE -
          ([[]] : List (List Byte)).flatten.length % AES_BLOCK_SIZE)
        (AES_BLOCK_SIZE -
          ([[]] : List (List Byte)).flatten.length % AES_BLOCK_SIZE))] =
      some ([[]] : List (List Byte)).flatten :=
  encrypt_decrypt_roundtrip idCiph (fun b hb => hb) (fun b _ => rfl)
    (List.replicate 32 0) (List.replicate 16 0) ectxW dctxW rfl rfl
    [[]] (by decide) _ (runStream_encrypt ectxW rfl rfl rfl [[]])
    [cipherOp ectxW (([[]] : List (List Byte)).flatten ++
      List.replicate (AES_BLOCK_SIZE -
          ([[]] : List (List Byte)).flatten.length % AES_BLOCK_SIZE)
        (AES_BLOCK_SIZE -
          ([[]] : List (List Byte)).flatten.length % AES_BLOCK_SIZE))]
    (by simp)
